import Mathlib

/-!
Verification of the scaffolding engine of the `ethakka` generator.

The development shallowly embeds, over `List Char`, the pure text
transformations of the repository:

* `src/utils/string-utils.ts` — the naming-normalization layer
  (`toPascalCase`, `toCamelCase`, `getSingular`, `getPlural`);
* `src/architectures/nest/commands/module-command.ts`, function
  `updateAppModule` — the aggregator patcher (the pure updater closure
  passed to `FileUtils.updateFile`);
* `src/common/database/database-strategy-factory.ts`, function
  `getStrategy` — strategy resolution;
* `src/architectures/nest/commands/all-command.ts`, step 5 — the
  module-list de-duplication performed when authentication is enabled.

JavaScript semantics notes: `String.prototype.includes`, `indexOf`,
`lastIndexOf`, `substring` and one-shot `replace` are modelled
character-exactly over `List Char`; `toUpperCase`/`toLowerCase` are
modelled by `Char.toUpper`/`Char.toLower`, which agree with JavaScript
on the ASCII range the generator's token constraint `[a-z0-9_-]+`
allows; the `\s` class of the split regex is modelled by the ASCII
whitespace characters.
-/

/-- ASCII separator class of the split regex `/[-_\s]/` in
`StringUtils.toPascalCase` (JavaScript `\s`, restricted to ASCII). -/
def isSepChar (c : Char) : Bool :=
  c = '-' || c = '_' || c = ' ' || c = '\t' || c = '\n' || c = '\r' ||
    c = '\x0b' || c = '\x0c'

/-- Accumulator-style splitting on separator characters, mirroring
JavaScript `str.split(/[-_\s]/)` (empty fragments are kept). -/
def splitSepsAux : List Char → List Char → List (List Char)
  | [], acc => [acc.reverse]
  | c :: cs, acc =>
    if isSepChar c then acc.reverse :: splitSepsAux cs []
    else splitSepsAux cs (c :: acc)

/-- The split `str.split(/[-_\s]/)` from `StringUtils.toPascalCase`. -/
def splitSeps (l : List Char) : List (List Char) :=
  splitSepsAux l []

/-- One word of `toPascalCase`:
`word.charAt(0).toUpperCase() + word.slice(1).toLowerCase()`. -/
def capitalizeWord : List Char → List Char
  | [] => []
  | c :: cs => c.toUpper :: cs.map Char.toLower

/-- Function `StringUtils.toPascalCase` from `src/utils/string-utils.ts`. -/
def toPascalCase (l : List Char) : List Char :=
  ((splitSeps l).map capitalizeWord).flatten

/-- The step `pascal.charAt(0).toLowerCase() + pascal.slice(1)` — the second
half of `StringUtils.toCamelCase`. -/
def lowerFirst : List Char → List Char
  | [] => []
  | c :: cs => c.toLower :: cs

/-- Function `StringUtils.toCamelCase` from `src/utils/string-utils.ts`. -/
def toCamelCase (l : List Char) : List Char :=
  lowerFirst (toPascalCase l)

/-- JavaScript `str.endsWith(suf)`. -/
def endsWith (suf l : List Char) : Bool :=
  List.isSuffixOf suf l

/-- Function `StringUtils.getSingular`: `ies → y`; strip a final `s` unless the
word ends in `ss`; otherwise unchanged (`slice(0,-n)` is `take (len-n)`). -/
def getSingular (l : List Char) : List Char :=
  if endsWith "ies".data l then l.take (l.length - 3) ++ "y".data
  else if endsWith "s".data l && !endsWith "ss".data l then l.take (l.length - 1)
  else l

/-- Function `StringUtils.getPlural`: `y → ies`; append `s` unless the word
already ends in `s`; an `s`-ending word is returned unchanged. -/
def getPlural (l : List Char) : List Char :=
  if endsWith "y".data l then l.take (l.length - 1) ++ "ies".data
  else if !endsWith "s".data l then l ++ "s".data
  else l

/-- JavaScript `str.toLowerCase()` on ASCII input. -/
def toLowerCase (l : List Char) : List Char :=
  l.map Char.toLower

/-- The input constraint `[a-z0-9_-]+` the generator validates raw
tokens against (`/^([a-z\-\_\d])+$/` in the prompts). -/
def isTokenChar (c : Char) : Bool :=
  ('a' ≤ c && c ≤ 'z') || ('0' ≤ c && c ≤ '9') || c = '-' || c = '_'

/-- A valid raw token: nonempty and all characters from `[a-z0-9_-]`. -/
def validToken (l : List Char) : Bool :=
  !l.isEmpty && l.all isTokenChar

/-- Split `l` at the first occurrence of `pat` (JavaScript
`indexOf`-style search): returns the text before and after the
occurrence, or `none` when `pat` does not occur. -/
def splitFirst (pat : List Char) : List Char → Option (List Char × List Char)
  | [] => if pat.isEmpty then some ([], []) else none
  | c :: cs =>
    if pat.isPrefixOf (c :: cs) then some ([], (c :: cs).drop pat.length)
    else (splitFirst pat cs).map (fun p => (c :: p.1, p.2))

/-- JavaScript `str.includes(pat)`. -/
def includesL (pat l : List Char) : Bool :=
  (splitFirst pat l).isSome

/-- JavaScript one-shot `str.replace(pat, repl)` with a string pattern:
replaces only the first occurrence, returns the input unchanged when
the pattern is absent. -/
def replaceFirst (pat repl l : List Char) : List Char :=
  match splitFirst pat l with
  | some (pre, post) => pre ++ repl ++ post
  | none => l

/-- Whether `pat` occurs in `l` at index `i`. -/
def occursAt (pat l : List Char) (i : Nat) : Bool :=
  pat.isPrefixOf (l.drop i)

/-- JavaScript `str.lastIndexOf(pat)` (`none` for `-1`). -/
def lastIndexOf (pat l : List Char) : Option Nat :=
  ((List.range (l.length + 1)).filter (occursAt pat l)).getLast?

/-- JavaScript `str.indexOf(pat, start)` (`none` for `-1`). -/
def indexOfFrom (pat l : List Char) (start : Nat) : Option Nat :=
  ((List.range (l.length + 1)).filter
    (fun i => decide (start ≤ i) && occursAt pat l i)).head?

/-- The `moduleClassName` of `updateAppModule`:
`toPascalCase(getSingular(moduleName)) + "Module"`. -/
def moduleClassName (m : List Char) : List Char :=
  toPascalCase (getSingular m) ++ "Module".data

/-- The `importStatement` template literal of `updateAppModule`. -/
def impStmt (m : List Char) : List Char :=
  "import \x7b ".data ++ moduleClassName m ++
    (" \x7d from './".data ++ m ++ ("/".data ++ m ++ ".module';".data))

/-- The `endOfImportIndex` of `updateAppModule`:
`content.indexOf(";", content.lastIndexOf("import")) + 1` (the
JavaScript `-1` sentinels collapse to `0` exactly as in the source). -/
def endOfImportIdx (content : List Char) : Nat :=
  match indexOfFrom ";".data content ((lastIndexOf "import".data content).getD 0) with
  | some j => j + 1
  | none => 0

/-- The import-insertion step of `updateAppModule`: splice the new
statement after the last existing import, or prepend it when the file
has no `import {` yet. -/
def insertImport (m content : List Char) : List Char :=
  if includesL "import \x7b".data content then
    content.take (endOfImportIdx content) ++
      (('\n' :: impStmt m) ++ content.drop (endOfImportIdx content))
  else impStmt m ++ ('\n' :: content)

/-- The warnings `updateAppModule` can log while patching. -/
inductive PatchWarning : Type where
  | alreadyImported : PatchWarning
  | anchorNotFound : PatchWarning

/-- The pure updater closure of `updateAppModule`
(`module-command.ts`, lines 309–356): returns the new aggregator text
together with the warnings logged on the way. -/
def updateAppModuleContent (m content : List Char) : List Char × List PatchWarning :=
  if includesL (moduleClassName m) content then
    (content, [PatchWarning.alreadyImported])
  else if includesL "imports: [".data (insertImport m content) then
    (replaceFirst "imports: [".data
      ("imports: [\n    ".data ++ moduleClassName m ++ ",".data)
      (insertImport m content), [])
  else if includesL "imports: [],".data (insertImport m content) then
    (replaceFirst "imports: [],".data
      ("imports: [".data ++ moduleClassName m ++ "],".data)
      (insertImport m content), [])
  else (insertImport m content, [PatchWarning.anchorNotFound])

/-- The patched aggregator text (first component of the updater). -/
def patchAppModule (m content : List Char) : List Char :=
  (updateAppModuleContent m content).1

/-- The database strategies registered in `DatabaseStrategyFactory`
(`prisma` is the only live case; `typeorm`/`mongoose` are commented
out in the source). -/
inductive DatabaseStrategy : Type where
  | prisma : DatabaseStrategy

/-- Function `DatabaseStrategyFactory.getStrategy`: switch on
`name.toLowerCase()`; the default branch throws
`Unsupported database strategy: ${name}`, modelled as `Except.error`
carrying the thrown message. -/
def getStrategy (name : List Char) : Except (List Char) DatabaseStrategy :=
  if toLowerCase name = "prisma".data then Except.ok DatabaseStrategy.prisma
  else Except.error ("Unsupported database strategy: ".data ++ name)

/-- Step 5 of `AllCommand.execute` (`all-command.ts`, lines 72–100):
the module-list manipulation performed before the create-module loop of
the composite workflow. In the source, when auth is enabled and the
list mentions `user` or `users`, the expression
`modulesToCreate.filter(...).unshift("user")` builds a filtered copy,
prepends `"user"` to that copy, and discards the result —
`modulesToCreate` itself is left unchanged, which this value-level
embedding reflects; the whole step only runs on a nonempty list. -/
def filterModulesForAuth (auth : Bool) (modules : List (List Char)) : List (List Char) :=
  if modules.isEmpty then modules
  else if auth then
    if modules.contains "user".data || modules.contains "users".data then
      modules
    else "user".data :: modules
  else modules


/-- A minimal generated aggregator file whose registration list is the
canonical empty literal `imports: [],` and which does not mention
`FooModule` anywhere. -/
def appModuleT1 : List Char :=
  "import \x7b A \x7d from './a';\n\n@Module(\x7b\n  imports: [],\n  controllers: [A],\n\x7d)\nexport class AppModule \x7b\x7d\n".data

section CharLemmas

theorem char_toNat_ofNat (n : Nat) (h : n.isValidChar) :
    (Char.ofNat n).toNat = n := by
  simp [Char.ofNat, h, Char.ofNatAux, Char.toNat, UInt32.toNat]

theorem char_eq_of_toNat_eq {c d : Char} (h : c.toNat = d.toNat) : c = d := by
  have hc := Char.ofNat_toNat c
  have hd := Char.ofNat_toNat d
  rw [← hc, ← hd, h]

theorem toUpper_toNat (c : Char) :
    c.toUpper.toNat = if c.toNat ≥ 97 ∧ c.toNat ≤ 122 then c.toNat - 32 else c.toNat := by
  simp only [Char.toUpper]
  split
  · rename_i h
    exact char_toNat_ofNat _ (Or.inl (by omega))
  · rfl

theorem toLower_toNat (c : Char) :
    c.toLower.toNat = if c.toNat ≥ 65 ∧ c.toNat ≤ 90 then c.toNat + 32 else c.toNat := by
  simp only [Char.toLower]
  split
  · rename_i h
    exact char_toNat_ofNat _ (Or.inl (by omega))
  · rfl

theorem toUpper_toUpper (c : Char) : c.toUpper.toUpper = c.toUpper := by
  apply char_eq_of_toNat_eq
  rw [toUpper_toNat c.toUpper, toUpper_toNat c]
  split
  · split <;> omega
  · rfl

theorem toLower_toLower (c : Char) : c.toLower.toLower = c.toLower := by
  apply char_eq_of_toNat_eq
  rw [toLower_toNat c.toLower, toLower_toNat c]
  split
  · split <;> omega
  · rfl

theorem char_ne_of_toNat_ne {c d : Char} (h : c.toNat ≠ d.toNat) : c ≠ d :=
  fun he => h (congrArg Char.toNat he)

theorem isSepChar_eq_false_of_toNat (c : Char)
    (h : c.toNat ≠ 45 ∧ c.toNat ≠ 95 ∧ c.toNat ≠ 32 ∧ c.toNat ≠ 9 ∧
         c.toNat ≠ 10 ∧ c.toNat ≠ 13 ∧ c.toNat ≠ 11 ∧ c.toNat ≠ 12) :
    isSepChar c = false := by
  obtain ⟨h1, h2, h3, h4, h5, h6, h7, h8⟩ := h
  simp only [isSepChar, Bool.or_eq_false_iff, decide_eq_false_iff_not]
  refine ⟨⟨⟨⟨⟨⟨⟨?_, ?_⟩, ?_⟩, ?_⟩, ?_⟩, ?_⟩, ?_⟩, ?_⟩ <;>
    first
      | exact char_ne_of_toNat_ne (by simpa using h1)
      | exact char_ne_of_toNat_ne (by simpa using h2)
      | exact char_ne_of_toNat_ne (by simpa using h3)
      | exact char_ne_of_toNat_ne (by simpa using h4)
      | exact char_ne_of_toNat_ne (by simpa using h5)
      | exact char_ne_of_toNat_ne (by simpa using h6)
      | exact char_ne_of_toNat_ne (by simpa using h7)
      | exact char_ne_of_toNat_ne (by simpa using h8)

theorem isSepChar_toNat_of_sep {c : Char} (h : isSepChar c = true) :
    c.toNat = 45 ∨ c.toNat = 95 ∨ c.toNat = 32 ∨ c.toNat = 9 ∨
      c.toNat = 10 ∨ c.toNat = 13 ∨ c.toNat = 11 ∨ c.toNat = 12 := by
  simp only [isSepChar, Bool.or_eq_true, decide_eq_true_eq] at h
  rcases h with ((((((h | h) | h) | h) | h) | h) | h) | h <;>
    subst h <;> simp [Char.toNat]

theorem isSepChar_iff_toNat (c : Char) :
    isSepChar c = true ↔
      (c.toNat = 45 ∨ c.toNat = 95 ∨ c.toNat = 32 ∨ c.toNat = 9 ∨
        c.toNat = 10 ∨ c.toNat = 13 ∨ c.toNat = 11 ∨ c.toNat = 12) := by
  constructor
  · exact isSepChar_toNat_of_sep
  · intro h
    rcases h with h | h | h | h | h | h | h | h
    · have hc : c = '-' := char_eq_of_toNat_eq (by rw [h]; decide)
      rw [hc]; decide
    · have hc : c = '_' := char_eq_of_toNat_eq (by rw [h]; decide)
      rw [hc]; decide
    · have hc : c = ' ' := char_eq_of_toNat_eq (by rw [h]; decide)
      rw [hc]; decide
    · have hc : c = '\t' := char_eq_of_toNat_eq (by rw [h]; decide)
      rw [hc]; decide
    · have hc : c = '\n' := char_eq_of_toNat_eq (by rw [h]; decide)
      rw [hc]; decide
    · have hc : c = '\r' := char_eq_of_toNat_eq (by rw [h]; decide)
      rw [hc]; decide
    · have hc : c = '\x0b' := char_eq_of_toNat_eq (by rw [h]; decide)
      rw [hc]; decide
    · have hc : c = '\x0c' := char_eq_of_toNat_eq (by rw [h]; decide)
      rw [hc]; decide

theorem isSepChar_toUpper {c : Char} (h : isSepChar c = false) :
    isSepChar c.toUpper = false := by
  rw [← Bool.not_eq_true] at h ⊢
  rw [isSepChar_iff_toNat] at h ⊢
  rw [toUpper_toNat]
  split <;> omega

theorem isSepChar_toLower {c : Char} (h : isSepChar c = false) :
    isSepChar c.toLower = false := by
  rw [← Bool.not_eq_true] at h ⊢
  rw [isSepChar_iff_toNat] at h ⊢
  rw [toLower_toNat]
  split <;> omega

end CharLemmas

section NamingLemmas

theorem endsWith_iff {suf l : List Char} : endsWith suf l = true ↔ suf <:+ l := by
  unfold endsWith
  exact List.isSuffixOf_iff_suffix

theorem endsWith_eq_false {suf l : List Char} : endsWith suf l = false ↔ ¬ suf <:+ l := by
  rw [← endsWith_iff, Bool.not_eq_true]

theorem splitSepsAux_sepFree (l : List Char) :
    ∀ acc : List Char, (∀ c ∈ l, isSepChar c = false) →
      splitSepsAux l acc = [acc.reverse ++ l] := by
  induction l with
  | nil => intro acc _; simp [splitSepsAux]
  | cons c cs ih =>
    intro acc h
    have hc : isSepChar c = false := h c (by simp)
    simp only [splitSepsAux]
    rw [if_neg (by simp [hc])]
    rw [ih (c :: acc) (fun d hd => h d (by simp [hd]))]
    simp

theorem splitSeps_sepFree (l : List Char) (h : ∀ c ∈ l, isSepChar c = false) :
    splitSeps l = [l] := by
  unfold splitSeps
  rw [splitSepsAux_sepFree l [] h]
  simp

theorem pascal_sepFree (l : List Char) (h : ∀ c ∈ l, isSepChar c = false) :
    toPascalCase l = capitalizeWord l := by
  unfold toPascalCase
  rw [splitSeps_sepFree l h]
  simp

theorem capitalizeWord_sepFree (l : List Char) (h : ∀ c ∈ l, isSepChar c = false) :
    ∀ c ∈ capitalizeWord l, isSepChar c = false := by
  cases l with
  | nil => simp [capitalizeWord]
  | cons c cs =>
    intro d hd
    simp only [capitalizeWord, List.mem_cons] at hd
    rcases hd with rfl | hd
    · exact isSepChar_toUpper (h c (by simp))
    · obtain ⟨e, he, rfl⟩ := List.mem_map.mp hd
      exact isSepChar_toLower (h e (by simp [he]))

end NamingLemmas

/-- C3 counterexample: on the multi-word token `user-service` the
round trip fails, because `toPascalCase` lowercases everything after a
word's first letter: `toCamelCase (toPascalCase "user-service")` is
`userservice` while `toCamelCase "user-service"` is `userService`. -/
theorem C3_roundtrip_counterexample :
    toCamelCase (toPascalCase "user-service".data) ≠ toCamelCase "user-service".data := by
  decide

/-- C3 (amended): the case-conversion round trip
`toCamelCase (toPascalCase x) = toCamelCase x` holds for every token
containing no separator character (`-`, `_`, whitespace), i.e. for
single-word tokens; on multi-word tokens it fails (see the
counterexample). -/
theorem C3_roundtrip_separator_free (l : List Char)
    (h : ∀ c ∈ l, isSepChar c = false) :
    toCamelCase (toPascalCase l) = toCamelCase l := by
  unfold toCamelCase
  rw [pascal_sepFree l h, pascal_sepFree (capitalizeWord l) (capitalizeWord_sepFree l h)]
  cases l with
  | nil => rfl
  | cons c cs =>
    simp only [capitalizeWord, lowerFirst, List.map_map, Function.comp,
      toUpper_toUpper, toLower_toLower]
    congr 1
    exact List.map_congr_left fun a _ => toLower_toLower a

theorem C3_roundtrip_separator_free_witness :
    toCamelCase (toPascalCase "user".data) = toCamelCase "user".data :=
  C3_roundtrip_separator_free "user".data (by decide)

/-- C4 counterexample: `class` ends in `ss`, but `getPlural` returns it
unchanged instead of appending `s` as the claimed rule set demands. -/
theorem C4_ss_plural_counterexample :
    endsWith "ss".data "class".data = true ∧
      getPlural "class".data ≠ "class".data ++ "s".data := by
  decide

/-- C4 (amended): the rules the code actually implements. `getPlural`:
trailing `y` becomes `ies`; any other token already ending in `s`
(including `ss`-enders) is returned unchanged; otherwise `s` is
appended. `getSingular`: trailing `ies` becomes `y`; otherwise a final
`s` is stripped exactly when the token ends in `s` but not `ss`; all
other tokens (including `ss`-enders) are returned unchanged. -/
theorem C4_plural_singular_rules (l : List Char) :
    (endsWith "y".data l = true →
      getPlural l = l.take (l.length - 1) ++ "ies".data) ∧
    (endsWith "y".data l = false → endsWith "s".data l = false →
      getPlural l = l ++ "s".data) ∧
    (endsWith "y".data l = false → endsWith "s".data l = true →
      getPlural l = l) ∧
    (endsWith "ies".data l = true →
      getSingular l = l.take (l.length - 3) ++ "y".data) ∧
    (endsWith "ies".data l = false → endsWith "s".data l = true →
      endsWith "ss".data l = false → getSingular l = l.take (l.length - 1)) ∧
    (endsWith "ies".data l = false → endsWith "s".data l = false →
      getSingular l = l) ∧
    (endsWith "ies".data l = false → endsWith "ss".data l = true →
      getSingular l = l) := by
  refine ⟨?_, ?_, ?_, ?_, ?_, ?_, ?_⟩
  · intro h1
    simp [getPlural, h1]
  · intro h1 h2
    simp [getPlural, h1, h2]
  · intro h1 h2
    simp [getPlural, h1, h2]
  · intro h1
    simp [getSingular, h1]
  · intro h1 h2 h3
    simp [getSingular, h1, h2, h3]
  · intro h1 h2
    simp [getSingular, h1, h2]
  · intro h1 h2
    simp [getSingular, h1, h2]

theorem C4_plural_singular_rules_witness :
    getPlural "category".data =
        "category".data.take ("category".data.length - 1) ++ "ies".data ∧
    getSingular "buses".data = "buses".data.take ("buses".data.length - 1) ∧
    getSingular "class".data = "class".data :=
  ⟨(C4_plural_singular_rules "category".data).1 (by decide),
   (C4_plural_singular_rules "buses".data).2.2.2.2.1 (by decide) (by decide) (by decide),
   (C4_plural_singular_rules "class".data).2.2.2.2.2.2 (by decide) (by decide)⟩

/-- C5 counterexample: the round trip `getSingular (getPlural x) = x`
fails on the regular nouns `bus` (an `s`-ender, left unchanged by
`getPlural` and then stripped to `bu` by `getSingular`) and `movie`
(an `ie`-ender, pluralized to `movies` and then singularized to
`movy`), both of which match the `[a-z0-9_-]+` input pattern. -/
theorem C5_roundtrip_counterexample :
    validToken "bus".data = true ∧
      getSingular (getPlural "bus".data) ≠ "bus".data ∧
      validToken "movie".data = true ∧
      getSingular (getPlural "movie".data) ≠ "movie".data := by
  decide

/-- C5 (amended): for every token matching `[a-z0-9_-]+` that ends
neither in `s` nor in `ie`, both pluralization round trips hold:
`getSingular (getPlural x) = x` and
`getPlural (getSingular (getPlural x)) = getPlural x`. -/
theorem C5_roundtrip_regular (l : List Char) (hv : validToken l = true)
    (hs : endsWith "s".data l = false) (hie : endsWith "ie".data l = false) :
    getSingular (getPlural l) = l ∧
      getPlural (getSingular (getPlural l)) = getPlural l := by
  have main : getSingular (getPlural l) = l := by
    by_cases hy : endsWith "y".data l = true
    · obtain ⟨w, hw⟩ := endsWith_iff.mp hy
      subst hw
      have hp : getPlural (w ++ "y".data) = w ++ "ies".data := by
        rw [getPlural, if_pos hy]
        congr 1
        have hlen : (w ++ "y".data).length - 1 = w.length := by simp
        rw [hlen, List.take_left]
      rw [hp, getSingular, if_pos (endsWith_iff.mpr ⟨w, rfl⟩)]
      have hlen : (w ++ "ies".data).length - 3 = w.length := by simp
      rw [hlen, List.take_left]
    · have hy' : endsWith "y".data l = false := by
        rwa [← Bool.not_eq_true]
      have hp : getPlural l = l ++ "s".data := by
        simp [getPlural, hy', hs]
      rw [hp]
      have h1 : endsWith "ies".data (l ++ "s".data) = false := by
        rw [endsWith_eq_false]
        rintro ⟨w, hw⟩
        have hw' : (w ++ "ie".data) ++ "s".data = l ++ "s".data := by
          rw [List.append_assoc]
          exact hw
        have h2 : w ++ "ie".data = l := List.append_cancel_right hw'
        have : endsWith "ie".data l = true := endsWith_iff.mpr ⟨w, h2⟩
        rw [this] at hie
        exact absurd hie (by simp)
      have h2 : endsWith "s".data (l ++ "s".data) = true :=
        endsWith_iff.mpr ⟨l, rfl⟩
      have h3 : endsWith "ss".data (l ++ "s".data) = false := by
        rw [endsWith_eq_false]
        rintro ⟨w, hw⟩
        have hw' : (w ++ "s".data) ++ "s".data = l ++ "s".data := by
          rw [List.append_assoc]
          exact hw
        have hws : w ++ "s".data = l := List.append_cancel_right hw'
        have : endsWith "s".data l = true := endsWith_iff.mpr ⟨w, hws⟩
        rw [this] at hs
        exact absurd hs (by simp)
      rw [getSingular, if_neg (by simp [h1]), if_pos (by simp [h2, h3])]
      have hlen : (l ++ "s".data).length - 1 = l.length := by simp
      rw [hlen, List.take_left]
  exact ⟨main, by rw [main]⟩

theorem C5_roundtrip_regular_witness :
    getSingular (getPlural "cat".data) = "cat".data ∧
      getPlural (getSingular (getPlural "cat".data)) = getPlural "cat".data :=
  C5_roundtrip_regular "cat".data (by decide) (by decide) (by decide)

section PatcherInfra

theorem isPrefixOfEq {l₁ l₂ : List Char} : l₁.isPrefixOf l₂ = true ↔ l₁ <+: l₂ :=
  List.isPrefixOf_iff_prefix

theorem splitFirst_sound (pat : List Char) :
    ∀ l pre post : List Char, splitFirst pat l = some (pre, post) →
      l = pre ++ (pat ++ post) := by
  intro l
  induction l with
  | nil =>
    intro pre post h
    simp only [splitFirst] at h
    split at h
    · rename_i he
      have hpat : pat = [] := by simpa [List.isEmpty_iff] using he
      have hinj := Option.some.inj h
      injection hinj with h1 h2
      subst h1
      subst h2
      simp [hpat]
    · exact absurd h (by simp)
  | cons c cs ih =>
    intro pre post h
    simp only [splitFirst] at h
    split at h
    · rename_i hpf
      obtain ⟨t, ht⟩ := isPrefixOfEq.mp hpf
      have hinj := Option.some.inj h
      injection hinj with h1 h2
      subst h1
      subst h2
      rw [← ht, List.drop_left]
      simp
    · rw [Option.map_eq_some'] at h
      obtain ⟨⟨p₁, p₂⟩, hs, hf⟩ := h
      injection hf with h1 h2
      subst h1
      subst h2
      have := ih p₁ p₂ hs
      simp [this]

theorem includes_iff {pat l : List Char} : includesL pat l = true ↔ pat <:+: l := by
  constructor
  · intro h
    obtain ⟨⟨pre, post⟩, hp⟩ := Option.isSome_iff_exists.mp h
    exact ⟨pre, post, by
      rw [List.append_assoc]
      exact (splitFirst_sound pat l pre post hp).symm⟩
  · intro h
    induction l with
    | nil =>
      have hpat : pat = [] := List.infix_nil.mp h
      subst hpat
      rfl
    | cons c cs ih =>
      rcases List.infix_cons_iff.mp h with hp | hi
      · have hb : pat.isPrefixOf (c :: cs) = true := isPrefixOfEq.mpr hp
        simp [includesL, splitFirst, hb]
      · have hcs := ih hi
        simp only [includesL, splitFirst]
        split
        · simp
        · simpa [Option.isSome_map] using hcs

theorem includes_eq_false {pat l : List Char} :
    includesL pat l = false ↔ ¬ pat <:+: l := by
  rw [← includes_iff, Bool.not_eq_true]

theorem infix_ext {pat y x z : List Char} (h : pat <:+: y) :
    pat <:+: x ++ y ++ z := by
  obtain ⟨s, t, hst⟩ := h
  exact ⟨x ++ s, t ++ z, by rw [← hst]; simp [List.append_assoc]⟩

theorem infix_cons_ext {pat y : List Char} {a : Char} (h : pat <:+: y) :
    pat <:+: a :: y :=
  List.infix_cons_iff.mpr (Or.inr h)

end PatcherInfra

section PatchLemmas

theorem replaceFirst_eq {pat repl l pre post : List Char}
    (h : splitFirst pat l = some (pre, post)) :
    replaceFirst pat repl l = pre ++ (repl ++ post) := by
  simp [replaceFirst, h, List.append_assoc]

theorem mcn_infix_impStmt (m : List Char) :
    moduleClassName m <:+: impStmt m :=
  ⟨"import \x7b ".data,
    " \x7d from './".data ++ m ++ ("/".data ++ m ++ ".module';".data), rfl⟩

theorem patch_noop_of_includes {m content : List Char}
    (h : includesL (moduleClassName m) content = true) :
    updateAppModuleContent m content = (content, [PatchWarning.alreadyImported]) := by
  simp [updateAppModuleContent, h]

theorem mcn_infix_insertImport (m content : List Char) :
    moduleClassName m <:+: insertImport m content := by
  unfold insertImport
  split
  · obtain ⟨s, t, hst⟩ := infix_cons_ext (a := '\n') (mcn_infix_impStmt m)
    exact ⟨content.take (endOfImportIdx content) ++ s,
      t ++ content.drop (endOfImportIdx content), by
        rw [← hst]
        simp [List.append_assoc]⟩
  · obtain ⟨s, t, hst⟩ := mcn_infix_impStmt m
    exact ⟨s, t ++ ('\n' :: content), by
      rw [← hst]
      simp [List.append_assoc]⟩

theorem mcn_infix_patch (m content : List Char) :
    moduleClassName m <:+: patchAppModule m content := by
  unfold patchAppModule updateAppModuleContent
  by_cases h0 : includesL (moduleClassName m) content = true
  · rw [if_pos h0]
    exact includes_iff.mp h0
  · rw [if_neg h0]
    have hu : moduleClassName m <:+: insertImport m content :=
      mcn_infix_insertImport m content
    split
    · rename_i ha
      obtain ⟨⟨pre, post⟩, hp⟩ := Option.isSome_iff_exists.mp ha
      show moduleClassName m <:+: replaceFirst _ _ _
      rw [replaceFirst_eq hp]
      have hrepl : moduleClassName m <:+:
          ("imports: [\n    ".data ++ moduleClassName m ++ ",".data) :=
        ⟨"imports: [\n    ".data, ",".data, rfl⟩
      obtain ⟨s, t, hst⟩ := hrepl
      exact ⟨pre ++ s, t ++ post, by
        rw [← hst]
        simp [List.append_assoc]⟩
    · split
      · rename_i ha
        obtain ⟨⟨pre, post⟩, hp⟩ := Option.isSome_iff_exists.mp ha
        show moduleClassName m <:+: replaceFirst _ _ _
        rw [replaceFirst_eq hp]
        have hrepl : moduleClassName m <:+:
            ("imports: [".data ++ moduleClassName m ++ "],".data) :=
          ⟨"imports: [".data, "],".data, rfl⟩
        obtain ⟨s, t, hst⟩ := hrepl
        exact ⟨pre ++ s, t ++ post, by
          rw [← hst]
          simp [List.append_assoc]⟩
      · exact hu

end PatchLemmas

/-- C10: the aggregator patch is a no-op whenever the registration
identifier occurs anywhere in the aggregator text as a plain substring
(the source guard is `content.includes(moduleClassName)`), regardless
of whether a real import or registration entry exists; the text comes
back byte-for-byte and only the already-imported warning is logged. -/
theorem C10_patch_noop_on_substring (m content : List Char)
    (h : includesL (moduleClassName m) content = true) :
    updateAppModuleContent m content = (content, [PatchWarning.alreadyImported]) :=
  patch_noop_of_includes h

theorem C10_patch_noop_on_substring_witness :
    updateAppModuleContent "foo".data
        "// TODO: FooModuleHelper will handle registration\nconst x = 1;\n".data =
      ("// TODO: FooModuleHelper will handle registration\nconst x = 1;\n".data,
        [PatchWarning.alreadyImported]) :=
  C10_patch_noop_on_substring "foo".data
    "// TODO: FooModuleHelper will handle registration\nconst x = 1;\n".data
    (by decide)

/-- C2: the aggregator patch is idempotent — patching a second time
with the same module is the identity, because the first patch always
leaves the registration identifier in the text and the source guard
short-circuits on it; in particular a text already containing the
identifier is returned unchanged. -/
theorem C2_patch_idempotent :
    ∀ m content : List Char,
      patchAppModule m (patchAppModule m content) = patchAppModule m content ∧
      (includesL (moduleClassName m) content = true →
        patchAppModule m content = content) := by
  intro m content
  constructor
  · have h : includesL (moduleClassName m) (patchAppModule m content) = true :=
      includes_iff.mpr (mcn_infix_patch m content)
    show (updateAppModuleContent m (patchAppModule m content)).1 = _
    rw [patch_noop_of_includes h]
  · intro h
    show (updateAppModuleContent m content).1 = content
    rw [patch_noop_of_includes h]

theorem C2_patch_idempotent_witness :
    patchAppModule "foo".data (patchAppModule "foo".data appModuleT1) =
        patchAppModule "foo".data appModuleT1 ∧
    patchAppModule "foo".data "// FooModule".data = "// FooModule".data :=
  ⟨(C2_patch_idempotent "foo".data appModuleT1).1,
   (C2_patch_idempotent "foo".data "// FooModule".data).2 (by decide)⟩

/-- C7: the aggregator patch is monotonic and order-preserving — the
input text is a sublist (all characters, in order) of the patched text,
so every import line and registration entry of the input survives in
its original relative order; the patch only inserts, never removes. -/
theorem C7_patch_monotonic (m content : List Char) :
    content.Sublist (patchAppModule m content) := by
  have hu : content.Sublist (insertImport m content) := by
    unfold insertImport
    split
    · conv_lhs => rw [← List.take_append_drop (endOfImportIdx content) content]
      exact List.Sublist.append (List.Sublist.refl _) (List.sublist_append_right _ _)
    · exact (List.sublist_cons_self '\n' content).trans (List.sublist_append_right _ _)
  unfold patchAppModule updateAppModuleContent
  by_cases h0 : includesL (moduleClassName m) content = true
  · rw [if_pos h0]
  · rw [if_neg h0]
    split
    · rename_i ha
      obtain ⟨⟨pre, post⟩, hp⟩ := Option.isSome_iff_exists.mp ha
      have hdecomp := splitFirst_sound _ _ _ _ hp
      show content.Sublist (replaceFirst _ _ _)
      rw [replaceFirst_eq hp]
      refine hu.trans ?_
      rw [hdecomp]
      apply List.Sublist.append (List.Sublist.refl pre)
      apply List.Sublist.append ?_ (List.Sublist.refl post)
      have hsplit : ("imports: [\n    ".data ++ moduleClassName m ++ ",".data : List Char) =
          "imports: [".data ++ ("\n    ".data ++ (moduleClassName m ++ ",".data)) := by
        have hr : ("imports: [\n    ".data : List Char) =
            "imports: [".data ++ "\n    ".data := by decide
        rw [hr]
        simp [List.append_assoc]
      rw [hsplit]
      exact List.sublist_append_left _ _
    · split
      · rename_i ha
        obtain ⟨⟨pre, post⟩, hp⟩ := Option.isSome_iff_exists.mp ha
        have hdecomp := splitFirst_sound _ _ _ _ hp
        show content.Sublist (replaceFirst _ _ _)
        rw [replaceFirst_eq hp]
        refine hu.trans ?_
        rw [hdecomp]
        apply List.Sublist.append (List.Sublist.refl pre)
        apply List.Sublist.append ?_ (List.Sublist.refl post)
        have hpat : ("imports: [],".data : List Char) =
            "imports: [".data ++ "],".data := by decide
        have hrepl : ("imports: [".data ++ moduleClassName m ++ "],".data : List Char) =
            "imports: [".data ++ (moduleClassName m ++ "],".data) := by
          simp [List.append_assoc]
        rw [hpat, hrepl]
        exact List.Sublist.append (List.Sublist.refl _) (List.sublist_append_right _ _)
      · exact hu

section SpliceLemmas

theorem takePref (n : Nat) (l : List Char) : l.take n <+: l :=
  List.take_prefix n l

theorem prefix_append_split {p X Y : List Char} (h : p <+: X ++ Y) :
    p <+: X ∨ ∃ q, p = X ++ q ∧ q <+: Y := by
  induction X generalizing p with
  | nil =>
    right
    exact ⟨p, by simp, by simpa using h⟩
  | cons a X ih =>
    cases p with
    | nil =>
      left
      exact List.nil_prefix
    | cons b p₂ =>
      rw [List.cons_append, List.cons_prefix_cons] at h
      obtain ⟨rfl, h2⟩ := h
      rcases ih h2 with h3 | ⟨q, rfl, hq⟩
      · left
        exact List.cons_prefix_cons.mpr ⟨rfl, h3⟩
      · right
        exact ⟨q, rfl, hq⟩

theorem infix_append_split {pat X Y : List Char} (h : pat <:+: X ++ Y) :
    pat <:+: X ∨ pat <:+: Y ∨
      ∃ p q, p ++ q = pat ∧ p ≠ [] ∧ q ≠ [] ∧ p <:+ X ∧ q <+: Y := by
  induction X with
  | nil =>
    right
    left
    simpa using h
  | cons a X ih =>
    rw [List.cons_append, List.infix_cons_iff] at h
    rcases h with hp | hi
    · rw [← List.cons_append] at hp
      rcases prefix_append_split hp with h1 | ⟨q, hq, hqY⟩
      · left
        exact h1.isInfix
      · by_cases hq0 : q = []
        · subst hq0
          left
          rw [List.append_nil] at hq
          rw [hq]
        · right
          right
          exact ⟨a :: X, q, hq.symm, List.cons_ne_nil a X, hq0,
            List.suffix_refl _, hqY⟩
    · rcases ih hi with h1 | h2 | ⟨p, q, hpq, hp0, hq0, hsuf, hpre⟩
      · left
        exact infix_cons_ext h1
      · right
        left
        exact h2
      · right
        right
        exact ⟨p, q, hpq, hp0, hq0, hsuf.trans (List.suffix_cons a X), hpre⟩

theorem mem_head_of_pref {q : List Char} {a : Char} {w : List Char}
    (h : q <+: a :: w) (h0 : q ≠ []) : a ∈ q := by
  cases q with
  | nil => exact absurd rfl h0
  | cons b q₂ =>
    obtain ⟨hb, _⟩ := List.cons_prefix_cons.mp h
    subst hb
    exact List.mem_cons_self b q₂

theorem getLast_mem_of_suffix {p z : List Char} (h : p <:+ z) (h0 : p ≠ [])
    {x : Char} (hx : z.getLast? = some x) : x ∈ p := by
  obtain ⟨w, hw⟩ := h
  rw [← hw, List.getLast?_append, List.getLast?_eq_getLast p h0] at hx
  have hor : (some (p.getLast h0)).or w.getLast? = some (p.getLast h0) := rfl
  rw [hor] at hx
  have hxx := Option.some.inj hx
  rw [← hxx]
  exact List.getLast_mem h0

theorem impStmt_getLast (m : List Char) : (impStmt m).getLast? = some ';' := by
  unfold impStmt
  rw [List.getLast?_append, List.getLast?_append, List.getLast?_append]
  have hD : ((".module';".data : List Char)).getLast? = some ';' := by decide
  rw [hD]
  rfl

end SpliceLemmas

theorem anchor_not_in_insertImport {m content : List Char}
    (hbr : '[' ∉ impStmt m)
    (hc : ¬ ("imports: [".data <:+: content)) :
    ¬ ("imports: [".data <:+: insertImport m content) := by
  intro h
  unfold insertImport at h
  by_cases hbranch : includesL "import \x7b".data content = true
  · rw [if_pos hbranch] at h
    rcases infix_append_split h with h1 | h2 | ⟨p, q, hpq, hp0, hq0, hsuf, hpre⟩
    · exact hc (h1.trans (takePref (endOfImportIdx content) content).isInfix)
    · rcases infix_append_split h2 with h3 | h4 | ⟨p, q, hpq, hp0, hq0, hsuf, hpre⟩
      · have hmem : '[' ∈ ('\n' :: impStmt m) :=
          h3.sublist.subset (by decide : '[' ∈ ("imports: [".data : List Char))
        rcases List.mem_cons.mp hmem with h5 | h5
        · exact absurd h5 (by decide)
        · exact hbr h5
      · exact hc (h4.trans (List.drop_suffix (endOfImportIdx content) content).isInfix)
      · have hlast : (('\n' :: impStmt m)).getLast? = some ';' := by
          rw [show ('\n' :: impStmt m) = ['\n'] ++ impStmt m from rfl,
            List.getLast?_append, impStmt_getLast]
          rfl
        have h6 : ';' ∈ p := getLast_mem_of_suffix hsuf hp0 hlast
        have h7 : ';' ∈ ("imports: [".data : List Char) := by
          rw [← hpq]
          exact List.mem_append.mpr (Or.inl h6)
        exact absurd h7 (by decide)
    · have h8 : '\n' ∈ q := mem_head_of_pref hpre hq0
      have h9 : '\n' ∈ ("imports: [".data : List Char) := by
        rw [← hpq]
        exact List.mem_append.mpr (Or.inr h8)
      exact absurd h9 (by decide)
  · rw [if_neg hbranch] at h
    rcases infix_append_split h with h1 | h2 | ⟨p, q, hpq, hp0, hq0, hsuf, hpre⟩
    · exact hbr (h1.sublist.subset (by decide : '[' ∈ ("imports: [".data : List Char)))
    · rcases List.infix_cons_iff.mp h2 with h3 | h4
      · have hmem : '\n' ∈ ("imports: [".data : List Char) :=
          mem_head_of_pref h3 (by decide)
        exact absurd hmem (by decide)
      · exact hc h4
    · have h8 : '\n' ∈ q := mem_head_of_pref hpre hq0
      have h9 : '\n' ∈ ("imports: [".data : List Char) := by
        rw [← hpq]
        exact List.mem_append.mpr (Or.inr h8)
      exact absurd h9 (by decide)

/-- C8: on an aggregator text that contains neither registration-array
anchor (if `imports: [` is absent then so is `imports: [],`), the patch
is total — it returns the text with only the import statement inserted,
leaving everything else unchanged, and surfaces the non-fatal
anchor-not-found warning so the enclosing workflow can continue. The
module's import statement is assumed bracket-free, which holds for
every module name drawn from the generator's `[a-z0-9_-]+` token
constraint, and the identifier is assumed not already present (the
situation the claim's algorithm step describes). -/
theorem C8_anchor_not_found (m content : List Char)
    (hbr : '[' ∉ impStmt m)
    (hanchor : includesL "imports: [".data content = false)
    (hmcn : includesL (moduleClassName m) content = false) :
    updateAppModuleContent m content =
      (insertImport m content, [PatchWarning.anchorNotFound]) := by
  have hni : ¬ ("imports: [".data <:+: insertImport m content) :=
    anchor_not_in_insertImport hbr (includes_eq_false.mp hanchor)
  have h1 : includesL "imports: [".data (insertImport m content) = false :=
    includes_eq_false.mpr hni
  have h2 : includesL "imports: [],".data (insertImport m content) = false := by
    rw [includes_eq_false]
    intro hinf
    apply hni
    have hpre : ("imports: [".data : List Char) <+: "imports: [],".data :=
      ⟨"],".data, by decide⟩
    exact hpre.isInfix.trans hinf
  simp [updateAppModuleContent, hmcn, h1, h2]

theorem C8_anchor_not_found_witness :
    updateAppModuleContent "foo".data "const appBootstrap = 1;\n".data =
      (insertImport "foo".data "const appBootstrap = 1;\n".data,
        [PatchWarning.anchorNotFound]) :=
  C8_anchor_not_found "foo".data "const appBootstrap = 1;\n".data
    (by decide) (by decide) (by decide)


set_option maxRecDepth 100000 in
set_option maxHeartbeats 1000000 in
/-- C1 (code behavior at the failing input): on an aggregator whose
registration list is the canonical empty literal `imports: [],` and
which does not mention `FooModule`, the patch renders the list as
`imports: [\n    FooModule,],` — the first branch of the source fires
because `imports: [],` contains `imports: [` as a substring, so the
wholesale-replacement branch for the empty literal is unreachable and
the claimed rendering `imports: [FooModule],` never appears. -/
theorem C1_code_behavior_on_empty_imports :
    includesL "imports: [],".data appModuleT1 = true ∧
    includesL "FooModule".data appModuleT1 = false ∧
    includesL "FooModule".data (patchAppModule "foo".data appModuleT1) = true ∧
    includesL "imports: [FooModule],".data (patchAppModule "foo".data appModuleT1) = false ∧
    includesL "imports: [\n    FooModule,],".data (patchAppModule "foo".data appModuleT1) = true := by
  decide

/-- C6 counterexample: resolving the unregistered key
`unknown-backend` fails with the message
`Unsupported database strategy: unknown-backend`, which names the
rejected key but does not list the set of valid keys — the sole
registered key `prisma` does not occur in it. -/
theorem C6_error_message_counterexample :
    getStrategy "unknown-backend".data =
        Except.error ("Unsupported database strategy: unknown-backend".data) ∧
      includesL "prisma".data
        ("Unsupported database strategy: unknown-backend".data) = false :=
  ⟨rfl, by decide⟩

/-- C6 (amended): lookup is case-insensitive (any casing of `prisma`
resolves), and every unregistered key fails with an error naming the
rejected key — never a silent fallback — but the error does not list
the valid keys. -/
theorem C6_strategy_resolution (name : List Char) :
    (toLowerCase name = "prisma".data →
      getStrategy name = Except.ok DatabaseStrategy.prisma) ∧
    (toLowerCase name ≠ "prisma".data →
      getStrategy name =
        Except.error ("Unsupported database strategy: ".data ++ name)) := by
  constructor
  · intro h
    simp [getStrategy, h]
  · intro h
    simp [getStrategy, h]

theorem C6_strategy_resolution_witness :
    getStrategy "PRISMA".data = Except.ok DatabaseStrategy.prisma ∧
    getStrategy "unknown-backend".data =
      Except.error ("Unsupported database strategy: ".data ++ "unknown-backend".data) :=
  ⟨(C6_strategy_resolution "PRISMA".data).1 (by decide),
   (C6_strategy_resolution "unknown-backend".data).2 (by decide)⟩

/-- C9 (code behavior at the failing input): with auth enabled, a
module list that mentions `user` is returned unchanged — the
explicitly requested user entry is not dropped and no reserved `user`
unit is prepended, because the source discards the result of
`filter(...).unshift("user")`; the prepending only happens on lists
that do not mention `user`/`users` at all. -/
theorem C9_code_behavior_user_dedup :
    filterModulesForAuth true ["posts".data, "user".data] =
        ["posts".data, "user".data] ∧
      filterModulesForAuth true ["posts".data] =
        ["user".data, "posts".data] := by
  decide
